import Mathlib

/-!
Shallow embedding of the template composition and step-execution engine of
the `lepo` project scaffolder (ProjectBuilder and FileTemplater), together
with proofs about its specified behaviour.

Strings are modelled with Lean `String`/`List Char`; the JavaScript
`String.prototype.replace` with a global regex whose pattern is a
regex-escaped literal is modelled as literal, left-to-right,
non-overlapping replace-all (replacement text is not rescanned).  `$`
escape sequences in replacement values are not modelled: replacement
values are inserted literally.
-/

namespace Lepo

/-- Worker for `replaceAll`: scans `s` left to right; a positive `skip`
records characters of an already-matched token still to be consumed (the
matched token is replaced, and the replacement text is not rescanned). -/
def replaceAllAux (pat rep : List Char) : List Char → Nat → List Char
  | [], _ => []
  | _ :: rest, Nat.succ skip => replaceAllAux pat rep rest skip
  | c :: rest, 0 =>
    if pat ≠ [] ∧ pat.isPrefixOf (c :: rest) then
      rep ++ replaceAllAux pat rep rest (pat.length - 1)
    else
      c :: replaceAllAux pat rep rest 0

/-- Literal, left-to-right, non-overlapping replacement of every occurrence
of `pat` in `s` by `rep`; the replacement text is not rescanned.  This is
the behaviour of `text.replace(new RegExp(escapeRegExp(pat), 'g'), rep)`
for replacement strings without `$` sequences. -/
def replaceAll (s pat rep : List Char) : List Char :=
  replaceAllAux pat rep s 0

/-- String-level wrapper for `replaceAll`. -/
def replaceAllStr (s pat rep : String) : String :=
  ⟨replaceAll s.data pat.data rep.data⟩

/-- Decides whether `pat` occurs as a contiguous sublist of `s`
(JavaScript `String.prototype.includes`). -/
def containsSub (s pat : List Char) : Bool :=
  match s with
  | [] => pat.isEmpty
  | _ :: rest => pat.isPrefixOf s || containsSub rest pat

/-- String-level wrapper for `containsSub` (JavaScript `ver.includes(tag)`). -/
def includes (s tag : String) : Bool :=
  containsSub s.data tag.data

/-- Whitespace as trimmed by JavaScript `String.prototype.trim`
(restricted to the ASCII whitespace characters). -/
def isWhite (c : Char) : Bool :=
  c == ' ' || c == '\t' || c == '\n' || c == '\r'

/-- JavaScript `key.trim()`: remove leading and trailing whitespace. -/
def trimStr (s : String) : String :=
  ⟨(((s.data.dropWhile isWhite).reverse.dropWhile isWhite).reverse)⟩

/-- A variable value: boolean, number or string (source: `VariablesMap`
in `src/utils/file-templater.ts`). -/
inductive VarValue where
  | bool (b : Bool)
  | num (n : Int)
  | str (s : String)
deriving DecidableEq, Repr

/-- JavaScript `String(value)` on a variable value. -/
def VarValue.toStr : VarValue → String
  | .bool true => "true"
  | .bool false => "false"
  | .num n => toString n
  | .str s => s

/-- Insertion-ordered variables map, matching `for (const key in variables)`
enumeration order for string keys. -/
abbrev VariablesMap := List (String × VarValue)

/-- The placeholder token built for a key: `{{key.trim()}}`
(source: `FileTemplater.replaceInFile`, `ProjectBuilder.copyTemplateWithVariables`). -/
def tokenOf (key : String) : String :=
  "\x7b\x7b" ++ trimStr key ++ "\x7d\x7d"

/-- Placeholder substitution (source: `FileTemplater.replaceInFile`): for
each variable key in order, replace every occurrence of the literal token
`{{key.trim()}}` by `String(value)`.  Unknown tokens are untouched; the
function is total (no error). -/
def substitute (text : String) (vars : VariablesMap) : String :=
  vars.foldl (fun acc kv => replaceAllStr acc (tokenOf kv.1) kv.2.toStr) text

/-- Scan a list of bytes for a zero byte (source: the loop
`for (let i = 0; i < bytesRead; i++) if (buffer[i] === 0) return true`
in `ProjectBuilder.isBinary`). -/
def isBinaryScan : List Nat → Bool
  | [] => false
  | b :: rest => b == 0 || isBinaryScan rest

/-- Binary detector (source: `ProjectBuilder.isBinary`).  The argument is
the outcome of opening and reading the file: `none` models an I/O or
permission failure (the `catch` branch), `some bytes` the file's bytes, of
which at most the first 512 are read into the buffer. -/
def isBinary : Option (List Nat) → Bool
  | none => false
  | some bytes => isBinaryScan (bytes.take 512)

/-- Pre-release detection (source: `isStableVersion` inside
`ProjectBuilder.updatePackageJson`): a version is stable when it contains
none of the pre-release tags. -/
def isStableVersion (ver : String) : Bool :=
  (["alpha", "beta", "rc", "canary", "nightly"] : List String).all
    (fun tag => !(includes ver tag))

/-- The string-version patch of `ProjectBuilder.updatePackageJson`: on the
raw descriptor text, replace every literal occurrence of `workspace:*` by
`^version` when the version is stable, else by the raw version. -/
def updatePackageJsonVersionStr (content ver : String) : String :=
  let targetVersion := if isStableVersion ver then "^" ++ ver else ver
  replaceAllStr content "workspace:*" targetVersion

/-! ## JSON model and package-descriptor merge (`ProjectBuilder.mergePackageJson`) -/

/-- JSON values as parsed by `JSON.parse` (arrays are not needed by the
descriptors under study). -/
inductive JsonVal where
  | str (s : String)
  | num (n : Int)
  | bool (b : Bool)
  | null
  | obj (fields : List (String × JsonVal))

/-- A JSON object: insertion-ordered fields, as JavaScript objects are for
string keys. -/
abbrev JsonObj := List (String × JsonVal)

/-- `o[k]`: value of the first field named `k`, if any. -/
def lookupKey (o : JsonObj) (k : String) : Option JsonVal :=
  (o.find? (fun kv => kv.1 == k)).map (fun kv => kv.2)

/-- The JavaScript object spread `{ ...t, ...e }`: keys of `t` in order
(values overridden by `e` where `e` has the key), then keys of `e` not in
`t`, in the order of `e`. -/
def spreadMerge (t e : JsonObj) : JsonObj :=
  t.map (fun kv => (kv.1, (lookupKey e kv.1).getD kv.2)) ++
    e.filter (fun kv => (lookupKey t kv.1).isNone)

/-- JavaScript truthiness of a possibly-absent JSON value. -/
def jsTruthy : Option JsonVal → Bool
  | none => false
  | some (.str s) => !(s == "")
  | some (.num n) => !(n == 0)
  | some (.bool b) => b
  | some .null => false
  | some (.obj _) => true

/-- The assignment `mergedJson.name = v`: `none` models assigning
`undefined`, which `JSON.stringify` then drops from the written output;
assigning to an existing key keeps its position, a new key is appended. -/
def assignName (o : JsonObj) (v : Option JsonVal) : JsonObj :=
  match v with
  | none => o.filter (fun kv => !(kv.1 == "name"))
  | some val =>
    if (o.find? (fun kv => kv.1 == "name")).isSome then
      o.map (fun kv => if kv.1 == "name" then (kv.1, val) else kv)
    else
      o ++ [("name", val)]

/-- Total-order comparison of strings by code points, matching the default
JavaScript `Array.prototype.sort` comparison on the BMP. -/
def charsLe : List Char → List Char → Bool
  | [], _ => true
  | _ :: _, [] => false
  | a :: as, b :: bs =>
    if a.toNat < b.toNat then true
    else if b.toNat < a.toNat then false
    else charsLe as bs

/-- `a <= b` in JavaScript string comparison. -/
def strLe (a b : String) : Bool :=
  charsLe a.data b.data

/-- Insert a key into an already-sorted key list. -/
def insertKey (x : String) : List String → List String
  | [] => [x]
  | y :: ys => if strLe x y then x :: y :: ys else y :: insertKey x ys

/-- `Object.keys(obj).sort()` (insertion sort; object keys are unique, so
stability is irrelevant). -/
def sortKeys (l : List String) : List String :=
  l.foldr insertKey []

/-- Rebuild an object with its keys in alphabetical order (the
`sortedObj` loop in `ProjectBuilder.mergePackageJson`). -/
def sortObjKeys (fields : JsonObj) : JsonObj :=
  (sortKeys (fields.map (fun kv => kv.1))).filterMap
    (fun k => (fields.find? (fun kv => kv.1 == k)).map (fun kv => (k, kv.2)))

/-- Sort the value object at key `k` when present (the
`for (const key of ['scripts', 'dependencies', 'devDependencies'])` loop;
values of those keys are objects in well-formed descriptors). -/
def sortSpecialKey (o : JsonObj) (k : String) : JsonObj :=
  match lookupKey o k with
  | some (.obj fields) =>
    o.map (fun kv => if kv.1 == k then (kv.1, JsonVal.obj (sortObjKeys fields)) else kv)
  | _ => o

/-- `ProjectBuilder.mergePackageJson` on the two parsed descriptors:
`{ ...targetJson, ...extraJson }`, then
`mergedJson.name = targetJson.name || extraJson.name`, then alphabetic
key-sorting of `scripts`/`dependencies`/`devDependencies`. -/
def mergePackageJson (targetJson extraJson : JsonObj) : JsonObj :=
  let mergedJson := spreadMerge targetJson extraJson
  let nameVal :=
    if jsTruthy (lookupKey targetJson "name") then lookupKey targetJson "name"
    else lookupKey extraJson "name"
  let withName := assignName mergedJson nameVal
  (["scripts", "dependencies", "devDependencies"] : List String).foldl sortSpecialKey withName

/-! ## Inheritance resolver (`ProjectBuilder.processInheritanceFiles`) -/

/-- A directory entry of a template tree: a plain file, an inheritance
marker `<inherit:tname>`, or a subdirectory. -/
inductive FsEntry where
  | file (name : String)
  | marker (tname : String)
  | dir (name : String) (entries : List FsEntry)

/-- The template store: template name to the entries of its root
directory (the `TemplateLookup` collaborator behind `templatePath`). -/
abbrev Env := List (String × List FsEntry)

/-- `templatePath(name)`: the filesystem path of a named template. -/
def templatePathOf (n : String) : List String :=
  ["templates", n]

def lookupTemplate (env : Env) (n : String) : Option (List FsEntry) :=
  (env.find? (fun t => t.1 == n)).map (fun t => t.2)

/-- A step produced by inheritance resolution:
`{ from: ancestorPath, to: relativePath, variables }`. -/
structure InheritStep where
  fromDir : List String
  toDir : List String
  vars : VariablesMap
deriving DecidableEq, Repr

/-- Warnings logged during resolution. -/
inductive ResolutionWarning where
  | circular (p : List String)
  | missing (p : List String)
deriving DecidableEq, Repr

/-- The `for (const file of files)` loop of
`ProjectBuilder.processInheritanceFiles`, abstracted over the recursive
resolution of a directory (`resolveDir`): markers resolve their ancestor
recursively (appending the nested steps, then the ancestor's own step, or
a warning when the named template is missing); subdirectories are recursed
into with the extended relative path; results are concatenated in
directory order.  The visited set is the caller's already-extended copy:
every recursive call receives a value copy of it. -/
def processEntries (env : Env) (vars : VariablesMap)
    (resolveDir : List String → List FsEntry → List (List String) → List String →
      Option (List InheritStep × List ResolutionWarning)) :
    List String → List (List String) → List String → List FsEntry →
    Option (List InheritStep × List ResolutionWarning)
  | _, _, _, [] => some ([], [])
  | dirP, visited, rel, FsEntry.file _ :: rest =>
    processEntries env vars resolveDir dirP visited rel rest
  | dirP, visited, rel, FsEntry.marker t :: rest =>
    if t == "" then
      processEntries env vars resolveDir dirP visited rel rest
    else
      match lookupTemplate env t with
      | some tentries =>
        match resolveDir (templatePathOf t) tentries visited rel with
        | none => none
        | some (ns, nw) =>
          match processEntries env vars resolveDir dirP visited rel rest with
          | none => none
          | some (rs, rw) =>
            some (ns ++ [⟨templatePathOf t, rel, vars⟩] ++ rs, nw ++ rw)
      | none =>
        match processEntries env vars resolveDir dirP visited rel rest with
        | none => none
        | some (rs, rw) => some (rs, ResolutionWarning.missing (templatePathOf t) :: rw)
  | dirP, visited, rel, FsEntry.dir n es :: rest =>
    match resolveDir (dirP ++ [n]) es visited (rel ++ [n]) with
    | none => none
    | some (ds, dw) =>
      match processEntries env vars resolveDir dirP visited rel rest with
      | none => none
      | some (rs, rw) => some (ds ++ rs, dw ++ rw)

/-- `ProjectBuilder.processInheritanceFiles(templateDir, variables,
processedTemplates, relativePath)`.  `fuel` bounds the depth of directory
visits and is an artifact of the embedding: the TypeScript recursion has
no fuel, and the termination theorem exhibits a computable bound on which
the result is `some`.  On entry the visited set is consulted and then
extended by the current directory; all recursion below this call receives
a value copy of the extended set. -/
def processInheritanceFiles (env : Env) (vars : VariablesMap) (fuel : Nat) :
    List String → List FsEntry → List (List String) → List String →
    Option (List InheritStep × List ResolutionWarning) :=
  match fuel with
  | 0 => fun _ _ _ _ => none
  | Nat.succ fuel => fun templateDir entries visited relativePath =>
    if templateDir ∈ visited then
      some ([], [ResolutionWarning.circular templateDir])
    else
      processEntries env vars (processInheritanceFiles env vars fuel)
        templateDir (templateDir :: visited) relativePath entries

/-- All directory paths beneath `base` in a list of entries. -/
def subDirPaths (base : List String) : List FsEntry → List (List String)
  | [] => []
  | FsEntry.dir n es :: rest =>
    (base ++ [n]) :: (subDirPaths (base ++ [n]) es ++ subDirPaths base rest)
  | _ :: rest => subDirPaths base rest

/-- Every directory path the resolver can ever visit for a given store. -/
def allPaths (env : Env) : List (List String) :=
  env.flatMap (fun t => templatePathOf t.1 :: subDirPaths (templatePathOf t.1) t.2)

/-- The distinct elements of a path list (keeping last occurrences). -/
def dedupPaths : List (List String) → List (List String)
  | [] => []
  | p :: rest => if p ∈ rest then dedupPaths rest else p :: dedupPaths rest

/-- A fuel value sufficient for resolution to complete (termination
theorem): one more than the number of distinct visitable directories. -/
def boundFuel (env : Env) : Nat :=
  (dedupPaths (allPaths env)).length + 1

/-- Resolution of a named template with adequate fuel. -/
def resolveTemplate (env : Env) (tname : String) (vars : VariablesMap) :
    Option (List InheritStep × List ResolutionWarning) :=
  match lookupTemplate env tname with
  | none => none
  | some es => processInheritanceFiles env vars (boundFuel env) (templatePathOf tname) es [] []

/-- `ProjectBuilder.loadTemplate`: resolve inheritance, add the resulting
ancestor steps in order, then add the template's own step last (skip and
rename configuration is elided; it does not affect step ordering). -/
def loadTemplate (env : Env) (tname : String) (vars : VariablesMap) :
    Option (List InheritStep × List ResolutionWarning) :=
  (resolveTemplate env tname vars).map
    (fun r => (r.1 ++ [⟨templatePathOf tname, [], vars⟩], r.2))

/-- A chain store: `a` inherits `b`, `b` inherits `c`, `c` is a root. -/
def chainEnv (a b c : String) : Env :=
  [(a, [FsEntry.marker b]), (b, [FsEntry.marker c]), (c, [])]

/-- A two-template store whose templates inherit each other (a cycle). -/
def cycleEnv : Env :=
  [("A", [FsEntry.marker "B"]), ("B", [FsEntry.marker "A"])]

/-- A store where two sibling branches each inherit the same template. -/
def siblingEnv : Env :=
  [("A", [FsEntry.marker "B", FsEntry.marker "C"]),
   ("B", [FsEntry.marker "D"]),
   ("C", [FsEntry.marker "D"]),
   ("D", [])]

/-! ## Step registration and hook execution
(`ProjectBuilder.addStep` / `addSteps` / `executeStepWithHooks`) -/

/-- A pipeline step (`TemplateStep`): optional source directory, optional
destination, and optional pre/post hooks.  A hook is modelled by the list
of additional steps it returns; a present hook returning `void` (no
additional steps) is modelled by `some []`, an absent hook by `none`. -/
inductive MStep where
  | mk (fromDir : Option String) (toDir : Option String)
      (preHook : Option (List MStep)) (postHook : Option (List MStep))

def MStep.fromDir : MStep → Option String
  | .mk f _ _ _ => f

def MStep.toDir : MStep → Option String
  | .mk _ t _ _ => t

def MStep.preHook : MStep → Option (List MStep)
  | .mk _ _ p _ => p

def MStep.postHook : MStep → Option (List MStep)
  | .mk _ _ _ p => p

/-- JavaScript truthiness of an optional string (`""` is falsy). -/
def jsTruthyStr : Option String → Bool
  | none => false
  | some s => !(s == "")

/-- The registration-time validation condition of `ProjectBuilder.addStep`:
`!step.from && !step.preHook && !step.postHook`. -/
def stepLacksFromAndHooks (s : MStep) : Bool :=
  !jsTruthyStr s.fromDir && s.preHook.isNone && s.postHook.isNone

def stepValidationError : String :=
  "Template step must have either a template path (from) or hooks (preHook/postHook)"

/-- `ProjectBuilder.addStep`: validates, then appends to the step list. -/
def addStep (steps : List MStep) (s : MStep) : Except String (List MStep) :=
  if stepLacksFromAndHooks s then Except.error stepValidationError
  else Except.ok (steps ++ [s])

/-- `ProjectBuilder.addSteps`: `this.steps.push(...steps)` — appends with
no validation. -/
def addSteps (steps newSteps : List MStep) : List MStep :=
  steps ++ newSteps

/-- An observable action of step execution: one template materialization
(`copyTemplateWithVariables` plus its prepare commands). -/
inductive BuildEvent where
  | materialize (fromDir : String) (toDir : Option String)
deriving DecidableEq, Repr

/-- Trace of `ProjectBuilder.executeStep`: returns immediately when
`step.from` is falsy, otherwise materializes the step's template.  The
step's own hooks are never consulted here. -/
def executeStep (s : MStep) : List BuildEvent :=
  match s.fromDir with
  | none => []
  | some f => if f == "" then [] else [BuildEvent.materialize f s.toDir]

/-- Trace of `ProjectBuilder.executeStepWithHooks`: steps returned by the
pre-hook are executed immediately via `executeStep`, then the step's own
template is copied (when `step.from` is set), then steps returned by the
post-hook are executed via `executeStep`. -/
def executeStepWithHooks (s : MStep) : List BuildEvent :=
  (match s.preHook with
   | some l => l.flatMap executeStep
   | none => []) ++
  executeStep s ++
  (match s.postHook with
   | some l => l.flatMap executeStep
   | none => [])

/-! ## Per-file copy with substitution
(the non-`package.json` file branch of
`ProjectBuilder.copyTemplateWithVariables`) -/

/-- Standard UTF-8 encoding of one code point. -/
def utf8Bytes (c : Char) : List Nat :=
  let n := c.toNat
  if n < 0x80 then [n]
  else if n < 0x800 then
    [0xC0 + n / 0x40, 0x80 + n % 0x40]
  else if n < 0x10000 then
    [0xE0 + n / 0x1000, 0x80 + n / 0x40 % 0x40, 0x80 + n % 0x40]
  else
    [0xF0 + n / 0x40000, 0x80 + n / 0x1000 % 0x40, 0x80 + n / 0x40 % 0x40, 0x80 + n % 0x40]

/-- The bytes of a file whose text content is `s`. -/
def contentBytes (s : String) : List Nat :=
  s.data.flatMap utf8Bytes

/-- `isBinary` applied to a readable file with content `s`. -/
def isBinaryContent (s : String) : Bool :=
  isBinary (some (contentBytes s))

/-- A source file for the copy engine.  `substFails` models an I/O
failure inside `FileTemplater.replaceInFileAndUpdate` (the file was
already copied when the failure occurs). -/
structure SrcFile where
  name : String
  content : String
  substFails : Bool
deriving DecidableEq, Repr

/-- The produced destination file; `warned` records that a substitution
failure was logged for it. -/
structure DestFile where
  name : String
  content : String
  warned : Bool
deriving DecidableEq, Repr

/-- `renameFiles[file] || file` (a falsy rename value falls back to the
original name). -/
def renameLookup (renameFiles : List (String × String)) (name : String) : String :=
  match renameFiles.find? (fun kv => kv.1 == name) with
  | some kv => if kv.2 == "" then name else kv.2
  | none => name

/-- The plain-file branch of `copyTemplateWithVariables`: copy the bytes,
substitute the destination file name, and, when variables are present and
the copied file is not binary, substitute the content in place; a failure
there is logged (`warned`) and the copied bytes remain. -/
def copyFileWithVariables (vars : VariablesMap) (renameFiles : List (String × String))
    (f : SrcFile) : DestFile :=
  let distName := substitute (renameLookup renameFiles f.name) vars
  if vars.isEmpty then ⟨distName, f.content, false⟩
  else if isBinaryContent f.content then ⟨distName, f.content, false⟩
  else if f.substFails then ⟨distName, f.content, true⟩
  else ⟨distName, substitute f.content vars, false⟩

/-- The `for (const file of fs.readdirSync(from))` loop restricted to
plain files: every file is processed, regardless of substitution failures
on earlier files. -/
def copyFilesWithVariables (vars : VariablesMap) (renameFiles : List (String × String))
    (files : List SrcFile) : List DestFile :=
  files.map (copyFileWithVariables vars renameFiles)

/-! ## Prepare-command execution (`ProjectBuilder.executePrepareCommands`) -/

/-- A `<prepare_command>` marker file: the directory containing it (the
working directory for its command) and its text content. -/
structure MarkerFile where
  dirPath : String
  content : String
deriving DecidableEq, Repr

/-- Outcome of running the prepare commands found in scan order:
the substituted commands spawned, the marker files unlinked, the marker
whose command failed (if any; the thrown error propagates), and the
marker files still on disk afterwards. -/
structure PrepResult where
  executed : List String
  deleted : List MarkerFile
  failed : Option MarkerFile
  surviving : List MarkerFile
deriving DecidableEq, Repr

/-- The command text of a marker: content read, trimmed, then variables
substituted. -/
def prepCommandOf (vars : VariablesMap) (m : MarkerFile) : String :=
  substitute (trimStr m.content) vars

/-- `ProjectBuilder.executePrepareCommands` over the markers in scan
order.  `exitZero cmd cwd` models the `ShellExecutor` collaborator
(`true` iff the spawned command exits with code zero; a spawn failure is
a rejection as well).  An empty substituted command is not executed but
its marker is still unlinked; a failing command leaves its marker on disk,
the error is logged and rethrown, and no later marker is executed or
unlinked. -/
def executePrepareCommands (exitZero : String → String → Bool) (vars : VariablesMap) :
    List MarkerFile → PrepResult
  | [] => ⟨[], [], none, []⟩
  | m :: rest =>
    let cmd := prepCommandOf vars m
    if cmd == "" then
      let r := executePrepareCommands exitZero vars rest
      ⟨r.executed, m :: r.deleted, r.failed, r.surviving⟩
    else if exitZero cmd m.dirPath then
      let r := executePrepareCommands exitZero vars rest
      ⟨cmd :: r.executed, m :: r.deleted, r.failed, r.surviving⟩
    else
      ⟨[cmd], [], some m, m :: rest⟩

/-! ## Helper lemmas -/

theorem replaceAllAux_eq_of_not_contains (pat rep : List Char) :
    ∀ s, containsSub s pat = false → replaceAllAux pat rep s 0 = s := by
  intro s
  induction s with
  | nil => intro _; rfl
  | cons c rest ih =>
    intro h
    simp only [containsSub, Bool.or_eq_false_iff] at h
    simp only [replaceAllAux, h.1, Bool.false_eq_true, and_false, if_false, ne_eq]
    rw [ih h.2]

theorem replaceAllStr_eq_of_not_contains (s pat rep : String)
    (h : containsSub s.data pat.data = false) : replaceAllStr s pat rep = s := by
  simp only [replaceAllStr, replaceAll]
  rw [replaceAllAux_eq_of_not_contains pat.data rep.data s.data h]

theorem substitute_eq_of_no_tokens :
    ∀ (vars : VariablesMap) (text : String),
      (∀ kv ∈ vars, containsSub text.data (tokenOf kv.1).data = false) →
      substitute text vars = text := by
  intro vars
  induction vars with
  | nil => intro text _; rfl
  | cons kv rest ih =>
    intro text h
    have h1 : replaceAllStr text (tokenOf kv.1) kv.2.toStr = text :=
      replaceAllStr_eq_of_not_contains _ _ _ (h kv (List.mem_cons_self kv rest))
    show substitute (replaceAllStr text (tokenOf kv.1) kv.2.toStr) rest = text
    rw [h1]
    exact ih text (fun kv2 hkv2 => h kv2 (List.mem_cons_of_mem kv hkv2))

theorem isBinaryScan_iff_exists (l : List Nat) :
    isBinaryScan l = true ↔ ∃ x ∈ l, x = 0 := by
  induction l with
  | nil => simp [isBinaryScan]
  | cons b rest ih =>
    simp only [isBinaryScan, Bool.or_eq_true, beq_iff_eq, ih, List.mem_cons]
    constructor
    · rintro (h | ⟨x, hx, rfl⟩)
      · exact ⟨b, Or.inl rfl, h⟩
      · exact ⟨0, Or.inr hx, rfl⟩
    · rintro ⟨x, hx | hx, rfl⟩
      · exact Or.inl hx.symm
      · exact Or.inr ⟨0, hx, rfl⟩

/-! ## Claim C4: placeholder substitution -/

/-- C4: For every input text and variables map, substitution replaces, for
each variable key, all occurrences of the literal token `{{key.trim()}}`
with `String(value)`, and leaves text without those tokens — in particular
any token whose key is not in the map — verbatim, without error: texts
containing none of the map's tokens are returned unchanged, and
`substitute("{{name}}.txt", {name:"x"}) = "x.txt"`,
`substitute("# {{name}}", {name:"x"}) = "# x"`, all occurrences are
replaced, each key is processed, and `{{missing}}` is left unchanged. -/
theorem claim_c4_substitution
    (text : String) (vars : VariablesMap)
    (h : ∀ kv ∈ vars, containsSub text.data (tokenOf kv.1).data = false) :
    substitute text vars = text ∧
    substitute "\x7b\x7bname\x7d\x7d.txt" [("name", VarValue.str "x")] = "x.txt" ∧
    substitute "# \x7b\x7bname\x7d\x7d" [("name", VarValue.str "x")] = "# x" ∧
    substitute "\x7b\x7bname\x7d\x7d-\x7b\x7bname\x7d\x7d" [("name", VarValue.str "x")] = "x-x" ∧
    substitute "\x7b\x7ba\x7d\x7d\x7b\x7bb\x7d\x7d"
      [("a", VarValue.str "1"), ("b", VarValue.str "2")] = "12" ∧
    substitute "\x7b\x7bmissing\x7d\x7d.txt" [("name", VarValue.str "x")] =
      "\x7b\x7bmissing\x7d\x7d.txt" := by
  refine ⟨substitute_eq_of_no_tokens vars text h, ?_, ?_, ?_, ?_, ?_⟩ <;> decide

/-- C4 witness: the general part of `claim_c4_substitution` applied to a
concrete token-free text and map. -/
theorem claim_c4_substitution_witness :
    substitute "plain text" [("name", VarValue.str "x")] = "plain text" :=
  (claim_c4_substitution "plain text" [("name", VarValue.str "x")] (by decide)).1

/-! ## Claim C5: `workspace:*` rewriting by `updatePackageJson` -/

/-- C5: patching a descriptor with a single string version replaces every
literal occurrence of `workspace:*` with `^version` when `version`
contains none of the substrings alpha/beta/rc/canary/nightly, and with the
raw version otherwise; `"1.2.3"` gives `"^1.2.3"`, `"1.2.3-beta"` gives
`"1.2.3-beta"`. -/
theorem claim_c5_workspace_rewrite (content ver : String) :
    ((∀ tag ∈ (["alpha", "beta", "rc", "canary", "nightly"] : List String),
        includes ver tag = false) →
      updatePackageJsonVersionStr content ver =
        replaceAllStr content "workspace:*" ("^" ++ ver)) ∧
    ((∃ tag ∈ (["alpha", "beta", "rc", "canary", "nightly"] : List String),
        includes ver tag = true) →
      updatePackageJsonVersionStr content ver =
        replaceAllStr content "workspace:*" ver) ∧
    updatePackageJsonVersionStr "\"dep\": \"workspace:*\"" "1.2.3" =
      "\"dep\": \"^1.2.3\"" ∧
    updatePackageJsonVersionStr "\"dep\": \"workspace:*\"" "1.2.3-beta" =
      "\"dep\": \"1.2.3-beta\"" := by
  refine ⟨?_, ?_, by decide, by decide⟩
  · intro h
    have hs : isStableVersion ver = true := by
      simp only [isStableVersion, List.all_eq_true, Bool.not_eq_true']
      exact h
    simp [updatePackageJsonVersionStr, hs]
  · rintro ⟨tag, htag, hinc⟩
    have hs : isStableVersion ver = false := by
      simp only [isStableVersion, List.all_eq_false]
      exact ⟨tag, htag, by simp [hinc]⟩
    simp [updatePackageJsonVersionStr, hs]

/-- C5 witness: `claim_c5_workspace_rewrite` applied at concrete inputs,
discharging the hypotheses of both implications. -/
theorem claim_c5_workspace_rewrite_witness :
    updatePackageJsonVersionStr "x workspace:* y" "2.0.0" =
      replaceAllStr "x workspace:* y" "workspace:*" ("^" ++ "2.0.0") ∧
    updatePackageJsonVersionStr "x workspace:* y" "2.0.0-rc.1" =
      replaceAllStr "x workspace:* y" "workspace:*" "2.0.0-rc.1" :=
  ⟨(claim_c5_workspace_rewrite "x workspace:* y" "2.0.0").1 (by decide),
   (claim_c5_workspace_rewrite "x workspace:* y" "2.0.0-rc.1").2.1
     ⟨"rc", by decide, by decide⟩⟩

/-! ## Claim C7: binary detection -/

/-- C7: the binary detector examines at most the first 512 bytes and
returns `true` exactly when one of those bytes is zero; an unreadable file
(I/O or permission failure) yields `false` (fail open). -/
theorem claim_c7_binary_detector :
    isBinary none = false ∧
    (∀ bytes : List Nat, isBinary (some bytes) = true ↔
      ∃ i : Fin bytes.length, i.val < 512 ∧ bytes.get i = 0) := by
  refine ⟨rfl, fun bytes => ?_⟩
  rw [show isBinary (some bytes) = isBinaryScan (bytes.take 512) from rfl,
    isBinaryScan_iff_exists]
  constructor
  · rintro ⟨x, hx, rfl⟩
    rw [List.mem_take_iff_getElem] at hx
    obtain ⟨i, hi, hget⟩ := hx
    have hilen : i < bytes.length := lt_of_lt_of_le hi (min_le_right _ _)
    exact ⟨⟨i, hilen⟩, lt_of_lt_of_le hi (min_le_left _ _), by
      simpa [List.get_eq_getElem] using hget⟩
  · rintro ⟨i, hi512, hget⟩
    refine ⟨0, ?_, rfl⟩
    rw [List.mem_take_iff_getElem]
    exact ⟨i.val, lt_min hi512 i.isLt, by simpa [List.get_eq_getElem] using hget⟩

/-! ## Claim C6: step registration validation -/

/-- C6 counterexample: a step with neither `from` nor any hook can be
registered through `addSteps` without any error, and is then held by the
builder at `build()` time — refuting the claim that every registration of
such a step throws before `build()` runs. -/
theorem claim_c6_counterexample :
    addSteps [] [MStep.mk none none none none] = [MStep.mk none none none none] ∧
    stepLacksFromAndHooks (MStep.mk none none none none) = true :=
  ⟨rfl, rfl⟩

/-- C6 (amended): `addStep` rejects a step with neither `from` (truthy)
nor a hook with a configuration error before `build()` runs, and any step
it accepts has `from` or at least one hook; `addSteps`, however, performs
no validation, so steps registered through it are not checked. -/
theorem claim_c6_registration_validation :
    (∀ (steps : List MStep) (s : MStep), stepLacksFromAndHooks s = true →
      addStep steps s = Except.error stepValidationError) ∧
    (∀ (steps : List MStep) (s : MStep) (out : List MStep),
      addStep steps s = Except.ok out →
      stepLacksFromAndHooks s = false ∧ out = steps ++ [s]) ∧
    (∀ (steps newSteps : List MStep), addSteps steps newSteps = steps ++ newSteps) := by
  refine ⟨fun steps s h => ?_, fun steps s out h => ?_, fun _ _ => rfl⟩
  · simp [addStep, h]
  · by_cases hv : stepLacksFromAndHooks s = true
    · simp [addStep, hv] at h
    · simp only [addStep, hv, Bool.false_eq_true, if_false] at h
      exact ⟨Bool.eq_false_iff.mpr (fun hh => hv hh), (Except.ok.inj h).symm⟩

/-- C6 witness: `claim_c6_registration_validation` applied to the empty
builder and a hook-less `from`-less step. -/
theorem claim_c6_registration_validation_witness :
    addStep [] (MStep.mk none none none none) = Except.error stepValidationError :=
  claim_c6_registration_validation.1 [] (MStep.mk none none none none) rfl

/-! ## Claim C9: hook-injected steps -/

/-- C9: steps returned by the pre-hook are executed immediately before the
step's own copy and steps returned by the post-hook immediately after it,
each batch in list order; the injection is one level deep — an injected
step is materialized through `executeStep`, whose outcome is independent
of the injected step's own hooks, so injected steps are never scanned for
further injected steps. -/
theorem claim_c9_hook_injected_steps :
    (∀ (f t : Option String) (pre post : List MStep),
      executeStepWithHooks (MStep.mk f t (some pre) (some post)) =
        pre.flatMap executeStep ++ executeStep (MStep.mk f t none none) ++
          post.flatMap executeStep) ∧
    (∀ (f t : Option String) (h1 h2 h1b h2b : Option (List MStep)),
      executeStep (MStep.mk f t h1 h2) = executeStep (MStep.mk f t h1b h2b)) := by
  constructor
  · intro f t pre post
    rfl
  · intro f t h1 h2 h1b h2b
    rfl

/-! ## Claim C8: binary files are copied byte-identical; failures do not abort -/

/-- C8: a copied plain file whose first 512 bytes contain a zero byte
keeps its content byte-identical while its destination name is still
substituted; a non-binary file whose in-place substitution fails keeps the
copied bytes and is only logged (`warned`); and each file of a directory
is processed independently, so a failure on one file never prevents the
remaining files from being copied. -/
theorem claim_c8_binary_copy_and_no_abort
    (vars : VariablesMap) (renameFiles : List (String × String)) (f : SrcFile)
    (hbin : isBinaryContent f.content = true) :
    copyFileWithVariables vars renameFiles f =
      ⟨substitute (renameLookup renameFiles f.name) vars, f.content, false⟩ ∧
    (∀ (g : SrcFile), g.substFails = true → vars ≠ [] →
      isBinaryContent g.content = false →
      copyFileWithVariables vars renameFiles g =
        ⟨substitute (renameLookup renameFiles g.name) vars, g.content, true⟩) ∧
    (∀ (l r : List SrcFile) (g : SrcFile),
      copyFilesWithVariables vars renameFiles (l ++ g :: r) =
        copyFilesWithVariables vars renameFiles l ++
          copyFileWithVariables vars renameFiles g ::
            copyFilesWithVariables vars renameFiles r) := by
  refine ⟨?_, fun g hfail hvars hnb => ?_, fun l r g => ?_⟩
  · by_cases hv : vars.isEmpty
    · simp [copyFileWithVariables, hv]
    · simp [copyFileWithVariables, hv, hbin]
  · have hv : vars.isEmpty = false := by
      cases vars with
      | nil => exact absurd rfl hvars
      | cons a l => rfl
    simp [copyFileWithVariables, hv, hnb, hfail]
  · simp [copyFilesWithVariables]

/-- C8 witness: `claim_c8_binary_copy_and_no_abort` at a concrete binary
file (content bytes `[65, 0, 66]`): content survives byte-identical while
the file name placeholder is substituted. -/
theorem claim_c8_binary_copy_and_no_abort_witness :
    copyFileWithVariables [("name", VarValue.str "x")] []
      ⟨"\x7b\x7bname\x7d\x7d.bin", "A\x00B", false⟩ = ⟨"x.bin", "A\x00B", false⟩ :=
  ((claim_c8_binary_copy_and_no_abort [("name", VarValue.str "x")] []
      ⟨"\x7b\x7bname\x7d\x7d.bin", "A\x00B", false⟩ (by decide)).1).trans (by decide)

/-! ## Claim C10: prepare-command failure semantics -/

/-- C10: a prepare-command marker is unlinked only after its (non-empty)
command exits with code zero; when a marker's command fails, the error
propagates, that marker and all later ones remain on disk, the earlier
markers have already been executed and unlinked, and no later marker is
executed. -/
theorem claim_c10_prepare_command_failure
    (exitZero : String → String → Bool) (vars : VariablesMap)
    (l r : List MarkerFile) (m : MarkerFile)
    (hok : ∀ m2 ∈ l, prepCommandOf vars m2 = "" ∨
      exitZero (prepCommandOf vars m2) m2.dirPath = true)
    (hne : prepCommandOf vars m ≠ "")
    (hfail : exitZero (prepCommandOf vars m) m.dirPath = false) :
    executePrepareCommands exitZero vars (l ++ m :: r) =
      ⟨(l.filterMap (fun m2 => if prepCommandOf vars m2 = "" then none
          else some (prepCommandOf vars m2))) ++ [prepCommandOf vars m],
        l, some m, m :: r⟩ ∧
    (∀ (ms : List MarkerFile) (m2 : MarkerFile),
      m2 ∈ (executePrepareCommands exitZero vars ms).deleted →
      prepCommandOf vars m2 = "" ∨ exitZero (prepCommandOf vars m2) m2.dirPath = true) := by
  constructor
  · induction l with
    | nil =>
      have hbeq : (prepCommandOf vars m == "") = false := by simp [hne]
      simp [executePrepareCommands, hbeq, hfail]
    | cons m0 rest ih =>
      have hrest := ih (fun m2 hm2 => hok m2 (List.mem_cons_of_mem m0 hm2))
      by_cases hz : prepCommandOf vars m0 = ""
      · have hbeq : (prepCommandOf vars m0 == "") = true := by simp [hz]
        simp only [List.cons_append, executePrepareCommands, hbeq, if_true]
        rw [List.append_eq, hrest]
        simp [List.filterMap_cons, hz]
      · have hsucc : exitZero (prepCommandOf vars m0) m0.dirPath = true := by
          rcases hok m0 (List.mem_cons_self m0 rest) with h | h
          · exact absurd h hz
          · exact h
        have hbeq : (prepCommandOf vars m0 == "") = false := by simp [hz]
        simp only [List.cons_append, executePrepareCommands, hbeq, Bool.false_eq_true,
          if_false, hsucc, if_true]
        rw [List.append_eq, hrest]
        simp [List.filterMap_cons, hz]
  · intro ms
    induction ms with
    | nil =>
      intro m2 hm2
      simp [executePrepareCommands] at hm2
    | cons m0 rest ih =>
      intro m2 hm2
      by_cases hz : prepCommandOf vars m0 = ""
      · have hbeq : (prepCommandOf vars m0 == "") = true := by simp [hz]
        simp only [executePrepareCommands, hbeq, if_true] at hm2
        rcases List.mem_cons.mp hm2 with rfl | hm2
        · exact Or.inl hz
        · exact ih m2 hm2
      · have hbeq : (prepCommandOf vars m0 == "") = false := by simp [hz]
        by_cases hsucc : exitZero (prepCommandOf vars m0) m0.dirPath = true
        · simp only [executePrepareCommands, hbeq, Bool.false_eq_true, if_false,
            hsucc, if_true] at hm2
          rcases List.mem_cons.mp hm2 with rfl | hm2
          · exact Or.inr hsucc
          · exact ih m2 hm2
        · simp only [executePrepareCommands, hbeq, Bool.false_eq_true, if_false,
            hsucc, List.not_mem_nil] at hm2

/-- C10 witness: `claim_c10_prepare_command_failure` at a concrete
three-marker scenario whose middle command fails. -/
theorem claim_c10_prepare_command_failure_witness :
    executePrepareCommands (fun c _ => !(c == "boom")) []
      [⟨"d1", "echo hi"⟩, ⟨"d2", "boom"⟩, ⟨"d3", "echo bye"⟩] =
      ⟨["echo hi", "boom"], [⟨"d1", "echo hi"⟩], some ⟨"d2", "boom"⟩,
        [⟨"d2", "boom"⟩, ⟨"d3", "echo bye"⟩]⟩ :=
  ((claim_c10_prepare_command_failure (fun c _ => !(c == "boom")) []
      [⟨"d1", "echo hi"⟩] [⟨"d3", "echo bye"⟩] ⟨"d2", "boom"⟩
      (by decide) (by decide) (by decide)).1).trans (by decide)

/-! ## Lookup lemmas for the merge model -/

theorem find?_map_key (g : String × JsonVal → String × JsonVal)
    (hg : ∀ kv, (g kv).1 = kv.1) (k : String) :
    ∀ o : JsonObj,
      (o.map g).find? (fun kv => kv.1 == k) = (o.find? (fun kv => kv.1 == k)).map g := by
  intro o
  induction o with
  | nil => rfl
  | cons kv rest ih =>
    by_cases h : kv.1 = k
    · simp [List.find?_cons, hg, h]
    · have h1 : (kv.1 == k) = false := by simp [h]
      have h2 : ((g kv).1 == k) = false := by rw [hg]; exact h1
      simp only [List.map_cons, List.find?_cons, h1, h2]
      exact ih

theorem find?_filter_of_imp {α : Type} (p q : α → Bool)
    (h : ∀ x, p x = true → q x = true) :
    ∀ l : List α, (l.filter q).find? p = l.find? p := by
  intro l
  induction l with
  | nil => rfl
  | cons a rest ih =>
    by_cases hq : q a = true
    · by_cases hp : p a = true
      · simp [List.filter_cons, hq, List.find?_cons, hp]
      · have hp2 : p a = false := Bool.eq_false_iff.mpr hp
        simp [List.filter_cons, hq, List.find?_cons, hp2, ih]
    · have hp2 : p a = false := by
        cases hpa : p a with
        | false => rfl
        | true => exact absurd (h a hpa) hq
      simp [List.filter_cons, Bool.eq_false_iff.mpr hq, List.find?_cons, hp2, ih]

theorem find?_filter_none {α : Type} (p q : α → Bool)
    (h : ∀ x, p x = true → q x = false) :
    ∀ l : List α, (l.filter q).find? p = none := by
  intro l
  induction l with
  | nil => rfl
  | cons a rest ih =>
    by_cases hq : q a = true
    · have hp : p a = false := by
        cases hpa : p a with
        | false => rfl
        | true => rw [h a hpa] at hq; exact absurd hq (by simp)
      simp [List.filter_cons, hq, List.find?_cons, hp, ih]
    · simp [List.filter_cons, Bool.eq_false_iff.mpr hq, ih]

theorem lookupKey_spreadMerge (t e : JsonObj) (k : String) :
    lookupKey (spreadMerge t e) k = (lookupKey e k).or (lookupKey t k) := by
  unfold spreadMerge lookupKey
  rw [List.find?_append,
    find?_map_key
      (fun kv => (kv.1, ((e.find? (fun kv2 => kv2.1 == kv.1)).map (fun kv2 => kv2.2)).getD kv.2))
      (fun kv => rfl) k t]
  cases hft : t.find? (fun kv => kv.1 == k) with
  | some kv0 =>
    have hk : kv0.1 = k := by simpa using List.find?_some hft
    subst hk
    cases he : e.find? (fun kv => kv.1 == kv0.1) with
    | some kv1 => simp [lookupKey, he]
    | none => simp [lookupKey, he]
  | none =>
    have himp : ∀ kv : String × JsonVal, (kv.1 == k) = true →
        ((t.find? (fun kv2 => kv2.1 == kv.1)).map (fun kv2 => kv2.2)).isNone = true := by
      intro kv hkv
      have hk : kv.1 = k := by simpa using hkv
      rw [hk, hft]
      rfl
    rw [find?_filter_of_imp _ _ himp]
    cases hfe : e.find? (fun kv => kv.1 == k) <;> rfl

theorem lookupKey_assignName_ne (o : JsonObj) (v : Option JsonVal) (k : String)
    (hk : k ≠ "name") : lookupKey (assignName o v) k = lookupKey o k := by
  cases v with
  | none =>
    unfold assignName lookupKey
    rw [find?_filter_of_imp]
    intro kv hkv
    have h1 : kv.1 = k := by simpa using hkv
    simp [h1, hk]
  | some val =>
    by_cases hname : (o.find? (fun kv => kv.1 == "name")).isSome
    · have heq : assignName o (some val) =
          o.map (fun kv => if kv.1 == "name" then (kv.1, val) else kv) := by
        show (if (o.find? (fun kv => kv.1 == "name")).isSome then
            o.map (fun kv => if kv.1 == "name" then (kv.1, val) else kv)
          else o ++ [("name", val)]) = _
        rw [if_pos hname]
      rw [heq]
      unfold lookupKey
      rw [find?_map_key (fun kv => if kv.1 == "name" then (kv.1, val) else kv)
          (fun kv => by by_cases h : kv.1 == "name" <;> simp [h]) k o]
      cases hf : o.find? (fun kv => kv.1 == k) with
      | none => rfl
      | some kv0 =>
        have h1 : kv0.1 = k := by simpa using List.find?_some hf
        simp [h1, hk]
    · have heq : assignName o (some val) = o ++ [("name", val)] := by
        show (if (o.find? (fun kv => kv.1 == "name")).isSome then
            o.map (fun kv => if kv.1 == "name" then (kv.1, val) else kv)
          else o ++ [("name", val)]) = _
        rw [if_neg hname]
      rw [heq]
      unfold lookupKey
      rw [List.find?_append]
      have h3 : (("name" : String) == k) = false := by
        simp only [beq_eq_false_iff_ne, ne_eq]
        intro hcontra
        exact hk hcontra.symm
      cases hf : o.find? (fun kv => kv.1 == k) with
      | none => simp [List.find?, h3]
      | some kv0 => rfl

theorem lookupKey_assignName_name (o : JsonObj) (val : JsonVal) :
    lookupKey (assignName o (some val)) "name" = some val := by
  by_cases hname : (o.find? (fun kv => kv.1 == "name")).isSome
  · have heq : assignName o (some val) =
        o.map (fun kv => if kv.1 == "name" then (kv.1, val) else kv) := by
      show (if (o.find? (fun kv => kv.1 == "name")).isSome then
          o.map (fun kv => if kv.1 == "name" then (kv.1, val) else kv)
        else o ++ [("name", val)]) = _
      rw [if_pos hname]
    rw [heq]
    unfold lookupKey
    rw [find?_map_key (fun kv => if kv.1 == "name" then (kv.1, val) else kv)
        (fun kv => by by_cases h : kv.1 == "name" <;> simp [h]) "name" o]
    cases hf : o.find? (fun kv => kv.1 == "name") with
    | none => rw [hf] at hname; exact absurd hname (by simp)
    | some kv0 =>
      have h1 : kv0.1 = "name" := by simpa using List.find?_some hf
      simp [h1]
  · have heq : assignName o (some val) = o ++ [("name", val)] := by
      show (if (o.find? (fun kv => kv.1 == "name")).isSome then
          o.map (fun kv => if kv.1 == "name" then (kv.1, val) else kv)
        else o ++ [("name", val)]) = _
      rw [if_neg hname]
    rw [heq]
    unfold lookupKey
    rw [List.find?_append]
    cases hf : o.find? (fun kv => kv.1 == "name") with
    | none => simp [List.find?]
    | some kv0 => rw [hf] at hname; exact absurd (by simp) hname

theorem lookupKey_sortSpecialKey_ne (o : JsonObj) (k2 k : String) (h : k ≠ k2) :
    lookupKey (sortSpecialKey o k2) k = lookupKey o k := by
  unfold sortSpecialKey
  cases h2 : lookupKey o k2 with
  | none => rfl
  | some v =>
    cases v with
    | obj fields =>
      show lookupKey
        (o.map (fun kv => if kv.1 == k2 then (kv.1, JsonVal.obj (sortObjKeys fields)) else kv)) k =
          lookupKey o k
      unfold lookupKey
      rw [find?_map_key (fun kv => if kv.1 == k2 then (kv.1, JsonVal.obj (sortObjKeys fields)) else kv)
        (fun kv => by by_cases hh : kv.1 == k2 <;> simp [hh]) k o]
      cases hf : o.find? (fun kv => kv.1 == k) with
      | none => rfl
      | some kv0 =>
        have h1 : kv0.1 = k := by simpa using List.find?_some hf
        simp [h1, h]
    | str s => rfl
    | num n => rfl
    | bool b => rfl
    | null => rfl

theorem lookupKey_sortSpecialKey_eq (o : JsonObj) (k : String)
    (f : List (String × JsonVal)) (h : lookupKey o k = some (JsonVal.obj f)) :
    lookupKey (sortSpecialKey o k) k = some (JsonVal.obj (sortObjKeys f)) := by
  have heq : sortSpecialKey o k =
      o.map (fun kv => if kv.1 == k then (kv.1, JsonVal.obj (sortObjKeys f)) else kv) := by
    unfold sortSpecialKey
    rw [h]
  rw [heq]
  unfold lookupKey
  rw [find?_map_key (fun kv => if kv.1 == k then (kv.1, JsonVal.obj (sortObjKeys f)) else kv)
    (fun kv => by by_cases hh : kv.1 == k <;> simp [hh]) k o]
  unfold lookupKey at h
  cases hf : o.find? (fun kv => kv.1 == k) with
  | none => rw [hf] at h; exact absurd h (by simp)
  | some kv0 =>
    have h1 : kv0.1 = k := by simpa using List.find?_some hf
    simp [h1]

/-! ## Sortedness of the key ordering -/

theorem charsLe_total : ∀ a b : List Char, charsLe a b = true ∨ charsLe b a = true := by
  intro a
  induction a with
  | nil => intro b; left; rfl
  | cons x xs ih =>
    intro b
    cases b with
    | nil => right; rfl
    | cons y ys =>
      by_cases h1 : x.toNat < y.toNat
      · left; simp [charsLe, h1]
      · by_cases h2 : y.toNat < x.toNat
        · right; simp [charsLe, h2]
        · rcases ih ys with h | h
          · left; simp [charsLe, h1, h2, h]
          · right; simp [charsLe, h1, h2, h]

theorem charsLe_trans :
    ∀ a b c : List Char, charsLe a b = true → charsLe b c = true → charsLe a c = true := by
  intro a
  induction a with
  | nil => intro b c _ _; rfl
  | cons x xs ih =>
    intro b c hab hbc
    cases b with
    | nil => simp [charsLe] at hab
    | cons y ys =>
      cases c with
      | nil => simp [charsLe] at hbc
      | cons z zs =>
        by_cases h1 : x.toNat < y.toNat
        · by_cases h2 : y.toNat < z.toNat
          · simp [charsLe, show x.toNat < z.toNat by omega]
          · by_cases h3 : z.toNat < y.toNat
            · simp [charsLe, h2, h3] at hbc
            · simp [charsLe, show x.toNat < z.toNat by omega]
        · by_cases h4 : y.toNat < x.toNat
          · simp [charsLe, h1, h4] at hab
          · by_cases h2 : y.toNat < z.toNat
            · simp [charsLe, show x.toNat < z.toNat by omega]
            · by_cases h3 : z.toNat < y.toNat
              · simp [charsLe, h2, h3] at hbc
              · have hxz1 : ¬ x.toNat < z.toNat := by omega
                have hxz2 : ¬ z.toNat < x.toNat := by omega
                simp only [charsLe, h1, h2, h3, h4, if_false, if_neg hxz1, if_neg hxz2]
                simp only [charsLe, h1, h4, if_neg h1, if_neg h4] at hab
                simp only [charsLe, h2, h3, if_neg h2, if_neg h3] at hbc
                exact ih ys zs hab hbc

theorem strLe_total (a b : String) : strLe a b = true ∨ strLe b a = true :=
  charsLe_total a.data b.data

theorem strLe_trans (a b c : String) (h1 : strLe a b = true) (h2 : strLe b c = true) :
    strLe a c = true :=
  charsLe_trans a.data b.data c.data h1 h2

theorem mem_insertKey (x z : String) :
    ∀ l : List String, z ∈ insertKey x l ↔ z = x ∨ z ∈ l := by
  intro l
  induction l with
  | nil => simp [insertKey]
  | cons y ys ih =>
    by_cases h : strLe x y = true
    · simp [insertKey, h, List.mem_cons]
    · have h2 : strLe x y = false := Bool.eq_false_iff.mpr h
      simp only [insertKey, h2, Bool.false_eq_true, if_false, List.mem_cons, ih]
      tauto

theorem pairwise_insertKey (x : String) :
    ∀ l : List String, l.Pairwise (fun a b => strLe a b = true) →
      (insertKey x l).Pairwise (fun a b => strLe a b = true) := by
  intro l
  induction l with
  | nil => intro _; simp [insertKey]
  | cons y ys ih =>
    intro h
    rcases List.pairwise_cons.mp h with ⟨hy, hys⟩
    by_cases hxy : strLe x y = true
    · show (if strLe x y then x :: y :: ys else y :: insertKey x ys).Pairwise _
      rw [if_pos hxy]
      refine List.pairwise_cons.mpr ⟨?_, h⟩
      intro z hz
      rcases List.mem_cons.mp hz with rfl | hz2
      · exact hxy
      · exact strLe_trans x y z hxy (hy z hz2)
    · show (if strLe x y then x :: y :: ys else y :: insertKey x ys).Pairwise _
      rw [if_neg (by simp [Bool.eq_false_iff.mpr hxy])]
      refine List.pairwise_cons.mpr ⟨?_, ih hys⟩
      intro z hz
      rcases (mem_insertKey x z ys).mp hz with rfl | hz2
      · rcases strLe_total z y with h2 | h2
        · exact absurd h2 hxy
        · exact h2
      · exact hy z hz2

theorem pairwise_sortKeys :
    ∀ l : List String, (sortKeys l).Pairwise (fun a b => strLe a b = true) := by
  intro l
  induction l with
  | nil => simp [sortKeys]
  | cons a rest ih =>
    show (insertKey a (sortKeys rest)).Pairwise _
    exact pairwise_insertKey a (sortKeys rest) ih

theorem mem_sortKeys (z : String) : ∀ l : List String, z ∈ sortKeys l ↔ z ∈ l := by
  intro l
  induction l with
  | nil => simp [sortKeys]
  | cons a rest ih =>
    show z ∈ insertKey a (sortKeys rest) ↔ _
    rw [mem_insertKey, ih, List.mem_cons]

theorem sortObjKeys_map_fst (f : JsonObj) :
    (sortObjKeys f).map (fun kv => kv.1) = sortKeys (f.map (fun kv => kv.1)) := by
  unfold sortObjKeys
  have aux : ∀ ks : List String,
      (∀ k ∈ ks, (f.find? (fun kv => kv.1 == k)).isSome = true) →
      ((ks.filterMap
        (fun k => (f.find? (fun kv => kv.1 == k)).map (fun kv => (k, kv.2)))).map
          (fun kv => kv.1)) = ks := by
    intro ks
    induction ks with
    | nil => intro _; rfl
    | cons k rest ih =>
      intro h
      have hk := h k (List.mem_cons_self k rest)
      obtain ⟨kv0, hkv0⟩ := Option.isSome_iff_exists.mp hk
      rw [List.filterMap_cons, hkv0]
      simp only [Option.map_some']
      rw [List.map_cons]
      rw [ih (fun k2 hk2 => h k2 (List.mem_cons_of_mem k hk2))]
  apply aux
  intro k hk
  have hmem : k ∈ f.map (fun kv => kv.1) := (mem_sortKeys k _).mp hk
  obtain ⟨kv, hkv, hfst⟩ := List.mem_map.mp hmem
  rw [List.find?_isSome]
  exact ⟨kv, hkv, by simp [hfst]⟩

/-! ## Claim C3: package-descriptor merge -/

/-- C3 counterexample: merging target `{dependencies:{a:"1"}}` with
incoming `{dependencies:{b:"2"}}` yields `{dependencies:{b:"2"}}` — the
incoming top-level `dependencies` object replaces the target's entirely
(shallow spread), not the union `{a:"1", b:"2"}` stated by the claim. -/
theorem claim_c3_counterexample :
    mergePackageJson [("dependencies", JsonVal.obj [("a", JsonVal.str "1")])]
        [("dependencies", JsonVal.obj [("b", JsonVal.str "2")])] =
      [("dependencies", JsonVal.obj [("b", JsonVal.str "2")])] ∧
    [("dependencies", JsonVal.obj [("b", JsonVal.str "2")])] ≠
      [("dependencies", JsonVal.obj [("a", JsonVal.str "1"), ("b", JsonVal.str "2")])] := by
  refine ⟨rfl, ?_⟩
  intro h
  simp at h

/-- C3 (amended): merging (when `isMergePackageJson` is set and a
descriptor exists at the destination) is a shallow top-level merge where
the incoming document's keys win, except `name`, kept from whichever side
already had a non-empty (truthy) value — the target side when both do —
and the `scripts`/`dependencies`/`devDependencies` objects are written
with alphabetically sorted keys; in particular merging target
`{dependencies:{a:"1"}}` with incoming `{dependencies:{b:"2"}}` yields
`{dependencies:{b:"2"}}`, the incoming map replacing the target's. -/
theorem claim_c3_merge_package_json :
    (∀ (t e : JsonObj) (k : String),
      k ≠ "name" → k ≠ "scripts" → k ≠ "dependencies" → k ≠ "devDependencies" →
      lookupKey (mergePackageJson t e) k = (lookupKey e k).or (lookupKey t k)) ∧
    (∀ t e : JsonObj, jsTruthy (lookupKey t "name") = true →
      lookupKey (mergePackageJson t e) "name" = lookupKey t "name") ∧
    (∀ t e : JsonObj, jsTruthy (lookupKey t "name") = false →
      jsTruthy (lookupKey e "name") = true →
      lookupKey (mergePackageJson t e) "name" = lookupKey e "name") ∧
    (∀ (t e : JsonObj) (k : String) (fe : List (String × JsonVal)),
      (k = "scripts" ∨ k = "dependencies" ∨ k = "devDependencies") →
      lookupKey e k = some (JsonVal.obj fe) →
      lookupKey (mergePackageJson t e) k = some (JsonVal.obj (sortObjKeys fe))) ∧
    (∀ f : JsonObj, ((sortObjKeys f).map (fun kv => kv.1)).Pairwise
      (fun a b => strLe a b = true)) ∧
    mergePackageJson [("dependencies", JsonVal.obj [("a", JsonVal.str "1")])]
        [("dependencies", JsonVal.obj [("b", JsonVal.str "2")])] =
      [("dependencies", JsonVal.obj [("b", JsonVal.str "2")])] := by
  have hunfold : ∀ t e : JsonObj, mergePackageJson t e =
      sortSpecialKey (sortSpecialKey (sortSpecialKey
        (assignName (spreadMerge t e)
          (if jsTruthy (lookupKey t "name") then lookupKey t "name"
           else lookupKey e "name"))
        "scripts") "dependencies") "devDependencies" := fun t e => rfl
  refine ⟨?_, ?_, ?_, ?_, ?_, rfl⟩
  · intro t e k h1 h2 h3 h4
    rw [hunfold, lookupKey_sortSpecialKey_ne _ _ _ h4,
      lookupKey_sortSpecialKey_ne _ _ _ h3, lookupKey_sortSpecialKey_ne _ _ _ h2,
      lookupKey_assignName_ne _ _ _ h1, lookupKey_spreadMerge]
  · intro t e ht
    rw [hunfold, lookupKey_sortSpecialKey_ne _ _ _ (by decide),
      lookupKey_sortSpecialKey_ne _ _ _ (by decide),
      lookupKey_sortSpecialKey_ne _ _ _ (by decide)]
    rw [if_pos ht]
    cases hn : lookupKey t "name" with
    | none => rw [hn] at ht; exact absurd ht (by simp [jsTruthy])
    | some v => exact lookupKey_assignName_name _ v
  · intro t e ht he
    rw [hunfold, lookupKey_sortSpecialKey_ne _ _ _ (by decide),
      lookupKey_sortSpecialKey_ne _ _ _ (by decide),
      lookupKey_sortSpecialKey_ne _ _ _ (by decide)]
    rw [if_neg (by simp [ht])]
    cases hn : lookupKey e "name" with
    | none => rw [hn] at he; exact absurd he (by simp [jsTruthy])
    | some v => exact lookupKey_assignName_name _ v
  · intro t e k fe hk hek
    rcases hk with rfl | rfl | rfl
    · rw [hunfold, lookupKey_sortSpecialKey_ne _ _ _ (by decide),
        lookupKey_sortSpecialKey_ne _ _ _ (by decide)]
      apply lookupKey_sortSpecialKey_eq
      rw [lookupKey_assignName_ne _ _ _ (by decide), lookupKey_spreadMerge, hek]
      rfl
    · rw [hunfold, lookupKey_sortSpecialKey_ne _ _ _ (by decide)]
      apply lookupKey_sortSpecialKey_eq
      rw [lookupKey_sortSpecialKey_ne _ _ _ (by decide),
        lookupKey_assignName_ne _ _ _ (by decide), lookupKey_spreadMerge, hek]
      rfl
    · rw [hunfold]
      apply lookupKey_sortSpecialKey_eq
      rw [lookupKey_sortSpecialKey_ne _ _ _ (by decide),
        lookupKey_sortSpecialKey_ne _ _ _ (by decide),
        lookupKey_assignName_ne _ _ _ (by decide), lookupKey_spreadMerge, hek]
      rfl
  · intro f
    rw [sortObjKeys_map_fst]
    exact pairwise_sortKeys _

/-- C3 witness: `claim_c3_merge_package_json` applied at concrete
descriptors — the incoming `version` wins, the target's non-empty `name`
is kept, and the incoming `dependencies` object is written sorted. -/
theorem claim_c3_merge_package_json_witness :
    lookupKey (mergePackageJson
        [("name", JsonVal.str "target"), ("version", JsonVal.str "1.0.0")]
        [("version", JsonVal.str "2.0.0")]) "version" = some (JsonVal.str "2.0.0") ∧
    lookupKey (mergePackageJson
        [("name", JsonVal.str "target"), ("version", JsonVal.str "1.0.0")]
        [("version", JsonVal.str "2.0.0")]) "name" = some (JsonVal.str "target") ∧
    lookupKey (mergePackageJson []
        [("dependencies", JsonVal.obj [("z", JsonVal.str "1"), ("a", JsonVal.str "2")])])
      "dependencies" =
      some (JsonVal.obj (sortObjKeys [("z", JsonVal.str "1"), ("a", JsonVal.str "2")])) :=
  ⟨(claim_c3_merge_package_json.1
      [("name", JsonVal.str "target"), ("version", JsonVal.str "1.0.0")]
      [("version", JsonVal.str "2.0.0")] "version"
      (by decide) (by decide) (by decide) (by decide)).trans rfl,
   (claim_c3_merge_package_json.2.1
      [("name", JsonVal.str "target"), ("version", JsonVal.str "1.0.0")]
      [("version", JsonVal.str "2.0.0")] rfl).trans rfl,
   claim_c3_merge_package_json.2.2.2.1 []
      [("dependencies", JsonVal.obj [("z", JsonVal.str "1"), ("a", JsonVal.str "2")])]
      "dependencies" [("z", JsonVal.str "1"), ("a", JsonVal.str "2")]
      (Or.inr (Or.inl rfl)) rfl⟩

/-! ## Resolver step lemmas -/

theorem pif_succ_not_mem (env : Env) (vars : VariablesMap) (fuel : Nat)
    (p : List String) (es : List FsEntry) (visited : List (List String))
    (rel : List String) (h : p ∉ visited) :
    processInheritanceFiles env vars (fuel + 1) p es visited rel =
      processEntries env vars (processInheritanceFiles env vars fuel)
        p (p :: visited) rel es := by
  have e1 : processInheritanceFiles env vars (fuel + 1) p es visited rel =
      if p ∈ visited then some ([], [ResolutionWarning.circular p])
      else processEntries env vars (processInheritanceFiles env vars fuel)
        p (p :: visited) rel es := rfl
  rw [e1, if_neg h]

theorem pif_succ_mem (env : Env) (vars : VariablesMap) (fuel : Nat)
    (p : List String) (es : List FsEntry) (visited : List (List String))
    (rel : List String) (h : p ∈ visited) :
    processInheritanceFiles env vars (fuel + 1) p es visited rel =
      some ([], [ResolutionWarning.circular p]) := by
  have e1 : processInheritanceFiles env vars (fuel + 1) p es visited rel =
      if p ∈ visited then some ([], [ResolutionWarning.circular p])
      else processEntries env vars (processInheritanceFiles env vars fuel)
        p (p :: visited) rel es := rfl
  rw [e1, if_pos h]

theorem pe_marker_resolved (env : Env) (vars : VariablesMap)
    (resolver : List String → List FsEntry → List (List String) → List String →
      Option (List InheritStep × List ResolutionWarning))
    (dirP : List String) (visited : List (List String)) (rel : List String)
    (t : String) (rest : List FsEntry) (tes : List FsEntry)
    (ns rs : List InheritStep) (nw rw2 : List ResolutionWarning)
    (ht : (t == "") = false) (hlook : lookupTemplate env t = some tes)
    (hnest : resolver (templatePathOf t) tes visited rel = some (ns, nw))
    (hrest : processEntries env vars resolver dirP visited rel rest = some (rs, rw2)) :
    processEntries env vars resolver dirP visited rel (FsEntry.marker t :: rest) =
      some (ns ++ [⟨templatePathOf t, rel, vars⟩] ++ rs, nw ++ rw2) := by
  simp only [processEntries, ht, Bool.false_eq_true, if_false, hlook, hnest, hrest]

/-! ## Distinct-path counting for the fuel bound -/

theorem dedupPaths_sub : ∀ (l : List (List String)) (q : List String),
    q ∈ dedupPaths l → q ∈ l := by
  intro l
  induction l with
  | nil => intro q hq; exact absurd hq (by simp [dedupPaths])
  | cons p rest ih =>
    intro q hq
    by_cases hp : p ∈ rest
    · rw [show dedupPaths (p :: rest) = dedupPaths rest by simp [dedupPaths, hp]] at hq
      exact List.mem_cons_of_mem p (ih q hq)
    · rw [show dedupPaths (p :: rest) = p :: dedupPaths rest by simp [dedupPaths, hp]] at hq
      rcases List.mem_cons.mp hq with rfl | hq2
      · exact List.mem_cons_self _ _
      · exact List.mem_cons_of_mem p (ih q hq2)

theorem toFinset_dedupPaths (l : List (List String)) :
    (dedupPaths l).toFinset = l.toFinset := by
  induction l with
  | nil => rfl
  | cons p rest ih =>
    by_cases hp : p ∈ rest
    · rw [show dedupPaths (p :: rest) = dedupPaths rest by simp [dedupPaths, hp], ih,
        List.toFinset_cons, Finset.insert_eq_self.mpr (List.mem_toFinset.mpr hp)]
    · rw [show dedupPaths (p :: rest) = p :: dedupPaths rest by simp [dedupPaths, hp],
        List.toFinset_cons, ih, List.toFinset_cons]

theorem nodup_dedupPaths : ∀ l : List (List String), (dedupPaths l).Nodup := by
  intro l
  induction l with
  | nil => simp [dedupPaths]
  | cons p rest ih =>
    by_cases hp : p ∈ rest
    · rw [show dedupPaths (p :: rest) = dedupPaths rest by simp [dedupPaths, hp]]
      exact ih
    · rw [show dedupPaths (p :: rest) = p :: dedupPaths rest by simp [dedupPaths, hp]]
      exact List.nodup_cons.mpr ⟨fun hc => hp (dedupPaths_sub rest p hc), ih⟩

theorem toFinset_card_le_dedupPaths (l : List (List String)) :
    l.toFinset.card ≤ (dedupPaths l).length := by
  rw [← toFinset_dedupPaths l, List.toFinset_card_of_nodup (nodup_dedupPaths l)]

/-! ## Totality of inheritance resolution -/

theorem lookupTemplate_paths (env : Env) (t : String) (tes : List FsEntry)
    (h : lookupTemplate env t = some tes) :
    templatePathOf t ∈ allPaths env ∧
      ∀ q ∈ subDirPaths (templatePathOf t) tes, q ∈ allPaths env := by
  unfold lookupTemplate at h
  cases hf : env.find? (fun x => x.1 == t) with
  | none => rw [hf] at h; exact absurd h (by simp)
  | some pr =>
    rw [hf] at h
    have hmem : pr ∈ env := List.mem_of_find?_eq_some hf
    have ht : pr.1 = t := by simpa using List.find?_some hf
    have htes : pr.2 = tes := by simpa using h
    constructor
    · unfold allPaths
      rw [List.mem_flatMap]
      exact ⟨pr, hmem, by rw [ht]; exact List.mem_cons_self _ _⟩
    · intro q hq
      unfold allPaths
      rw [List.mem_flatMap]
      refine ⟨pr, hmem, ?_⟩
      rw [ht, htes]
      exact List.mem_cons_of_mem _ hq

theorem processEntries_isSome (env : Env) (vars : VariablesMap)
    (R : List (List String)) (hR : ∀ p ∈ allPaths env, p ∈ R)
    (resolver : List String → List FsEntry → List (List String) → List String →
      Option (List InheritStep × List ResolutionWarning))
    (visited : List (List String))
    (hres : ∀ (p : List String) (es : List FsEntry) (rel : List String),
      p ∈ R → (∀ q ∈ subDirPaths p es, q ∈ R) →
      (resolver p es visited rel).isSome = true) :
    ∀ (es : List FsEntry) (p : List String) (rel : List String),
      (∀ q ∈ subDirPaths p es, q ∈ R) →
      (processEntries env vars resolver p visited rel es).isSome = true := by
  intro es
  induction es with
  | nil => intro p rel _; rfl
  | cons entry rest ih =>
    intro p rel hsub
    cases entry with
    | file name =>
      rw [show subDirPaths p (FsEntry.file name :: rest) = subDirPaths p rest by
        simp [subDirPaths]] at hsub
      exact ih p rel hsub
    | marker t =>
      rw [show subDirPaths p (FsEntry.marker t :: rest) = subDirPaths p rest by
        simp [subDirPaths]] at hsub
      by_cases ht : (t == "") = true
      · show (processEntries env vars resolver p visited rel
          (FsEntry.marker t :: rest)).isSome = true
        simp only [processEntries, ht, if_true]
        exact ih p rel hsub
      · have ht2 : (t == "") = false := Bool.eq_false_iff.mpr ht
        cases hlt : lookupTemplate env t with
        | some tes =>
          obtain ⟨hp, hsubt⟩ := lookupTemplate_paths env t tes hlt
          have h1 : (resolver (templatePathOf t) tes visited rel).isSome = true :=
            hres (templatePathOf t) tes rel (hR _ hp) (fun q hq => hR q (hsubt q hq))
          obtain ⟨r1, hr1⟩ := Option.isSome_iff_exists.mp h1
          obtain ⟨ns, nw⟩ := r1
          have h2 := ih p rel hsub
          obtain ⟨r2, hr2⟩ := Option.isSome_iff_exists.mp h2
          obtain ⟨rs, rw2⟩ := r2
          rw [pe_marker_resolved env vars resolver p visited rel t rest tes
            ns rs nw rw2 ht2 hlt hr1 hr2]
          rfl
        | none =>
          have h2 := ih p rel hsub
          obtain ⟨r2, hr2⟩ := Option.isSome_iff_exists.mp h2
          obtain ⟨rs, rw2⟩ := r2
          show (processEntries env vars resolver p visited rel
            (FsEntry.marker t :: rest)).isSome = true
          simp only [processEntries, ht2, Bool.false_eq_true, if_false, hlt, hr2]
          rfl
    | dir n es2 =>
      rw [show subDirPaths p (FsEntry.dir n es2 :: rest) =
          (p ++ [n]) :: (subDirPaths (p ++ [n]) es2 ++ subDirPaths p rest) by
        simp [subDirPaths]] at hsub
      have hpn : (p ++ [n]) ∈ R := hsub _ (List.mem_cons_self _ _)
      have hsub2 : ∀ q ∈ subDirPaths (p ++ [n]) es2, q ∈ R := fun q hq =>
        hsub q (List.mem_cons_of_mem _ (List.mem_append_left _ hq))
      have hsubr : ∀ q ∈ subDirPaths p rest, q ∈ R := fun q hq =>
        hsub q (List.mem_cons_of_mem _ (List.mem_append_right _ hq))
      have h1 := hres (p ++ [n]) es2 (rel ++ [n]) hpn hsub2
      obtain ⟨r1, hr1⟩ := Option.isSome_iff_exists.mp h1
      obtain ⟨ds, dw⟩ := r1
      have h2 := ih p rel hsubr
      obtain ⟨r2, hr2⟩ := Option.isSome_iff_exists.mp h2
      obtain ⟨rs, rw2⟩ := r2
      show (processEntries env vars resolver p visited rel
        (FsEntry.dir n es2 :: rest)).isSome = true
      simp only [processEntries, hr1, hr2]
      rfl

theorem processInheritanceFiles_isSome (env : Env) (vars : VariablesMap)
    (R : List (List String)) (hR : ∀ p ∈ allPaths env, p ∈ R) :
    ∀ (fuel : Nat) (p : List String) (es : List FsEntry)
      (visited : List (List String)) (rel : List String),
      p ∈ R → (∀ q ∈ subDirPaths p es, q ∈ R) →
      (R.toFinset \ visited.toFinset).card < fuel →
      (processInheritanceFiles env vars fuel p es visited rel).isSome = true := by
  intro fuel
  induction fuel with
  | zero =>
    intro p es visited rel _ _ hcard
    exact absurd hcard (Nat.not_lt_zero _)
  | succ f ih =>
    intro p es visited rel hp hsub hcard
    by_cases hv : p ∈ visited
    · rw [pif_succ_mem env vars f p es visited rel hv]
      rfl
    · rw [pif_succ_not_mem env vars f p es visited rel hv]
      have hpmem : p ∈ R.toFinset \ visited.toFinset :=
        Finset.mem_sdiff.mpr ⟨List.mem_toFinset.mpr hp,
          fun hc => hv (List.mem_toFinset.mp hc)⟩
      have hsd : R.toFinset \ (p :: visited).toFinset =
          (R.toFinset \ visited.toFinset).erase p := by
        rw [List.toFinset_cons, Finset.sdiff_insert]
      have hcard2 : (R.toFinset \ (p :: visited).toFinset).card < f := by
        rw [hsd, Finset.card_erase_of_mem hpmem]
        have hpos : 0 < (R.toFinset \ visited.toFinset).card :=
          Finset.card_pos.mpr ⟨p, hpmem⟩
        omega
      exact processEntries_isSome env vars R hR
        (processInheritanceFiles env vars f) (p :: visited)
        (fun p2 es2 rel2 hp2 hsub2 => ih p2 es2 (p :: visited) rel2 hp2 hsub2 hcard2)
        es p rel hsub

theorem resolveTemplate_isSome (env : Env) (tname : String) (tes : List FsEntry)
    (vars : VariablesMap) (h : lookupTemplate env tname = some tes) :
    (resolveTemplate env tname vars).isSome = true := by
  have h1 : resolveTemplate env tname vars =
      processInheritanceFiles env vars (boundFuel env)
        (templatePathOf tname) tes [] [] := by
    simp only [resolveTemplate, h]
  rw [h1]
  obtain ⟨hp, hsub⟩ := lookupTemplate_paths env tname tes h
  apply processInheritanceFiles_isSome env vars (allPaths env) (fun p hp2 => hp2)
    (boundFuel env) (templatePathOf tname) tes [] [] hp hsub
  show ((allPaths env).toFinset \ ([] : List (List String)).toFinset).card < boundFuel env
  rw [show ([] : List (List String)).toFinset = ∅ from rfl, Finset.sdiff_empty]
  have := toFinset_card_le_dedupPaths (allPaths env)
  unfold boundFuel
  omega

/-! ## Claim C2: cycle safety and termination of inheritance resolution -/

/-- C2: inheritance resolution terminates for every template layout (with
the canonical fuel bound the result is always defined, the visited set
being value-copied into each recursive call); in the cycle `A ↔ B`,
resolving `A` prunes only the re-entered branch with a circular-inheritance
warning, the cyclic ancestor `B` appearing exactly once in the chain; and
a template inherited by two independent sibling branches is still resolved
once per branch. -/
theorem claim_c2_cycle_safety :
    (∀ (env : Env) (tname : String) (tes : List FsEntry) (vars : VariablesMap),
      lookupTemplate env tname = some tes →
      (resolveTemplate env tname vars).isSome = true) ∧
    resolveTemplate cycleEnv "A" [] =
      some ([⟨templatePathOf "A", [], []⟩, ⟨templatePathOf "B", [], []⟩],
        [ResolutionWarning.circular (templatePathOf "A")]) ∧
    ((resolveTemplate cycleEnv "A" []).map
      (fun r => r.1.countP (fun s => decide (s.fromDir = templatePathOf "B")))) = some 1 ∧
    resolveTemplate siblingEnv "A" [] =
      some ([⟨templatePathOf "D", [], []⟩, ⟨templatePathOf "B", [], []⟩,
             ⟨templatePathOf "D", [], []⟩, ⟨templatePathOf "C", [], []⟩], []) ∧
    ((resolveTemplate siblingEnv "A" []).map
      (fun r => r.1.countP (fun s => decide (s.fromDir = templatePathOf "D")))) = some 2 := by
  have hb1 : boundFuel cycleEnv = 3 := by
    simp [boundFuel, allPaths, cycleEnv, templatePathOf, subDirPaths, dedupPaths]
  have hcyc : resolveTemplate cycleEnv "A" [] =
      some ([⟨templatePathOf "A", [], []⟩, ⟨templatePathOf "B", [], []⟩],
        [ResolutionWarning.circular (templatePathOf "A")]) := by
    have h1 : resolveTemplate cycleEnv "A" [] =
        processInheritanceFiles cycleEnv [] (boundFuel cycleEnv)
          (templatePathOf "A") [FsEntry.marker "B"] [] [] := rfl
    rw [h1, hb1]
    rfl
  have hb2 : boundFuel siblingEnv = 5 := by
    simp [boundFuel, allPaths, siblingEnv, templatePathOf, subDirPaths, dedupPaths]
  have hsib : resolveTemplate siblingEnv "A" [] =
      some ([⟨templatePathOf "D", [], []⟩, ⟨templatePathOf "B", [], []⟩,
             ⟨templatePathOf "D", [], []⟩, ⟨templatePathOf "C", [], []⟩], []) := by
    have h1 : resolveTemplate siblingEnv "A" [] =
        processInheritanceFiles siblingEnv [] (boundFuel siblingEnv)
          (templatePathOf "A") [FsEntry.marker "B", FsEntry.marker "C"] [] [] := rfl
    rw [h1, hb2]
    rfl
  exact ⟨fun env tname tes vars h => resolveTemplate_isSome env tname tes vars h,
    hcyc, by rw [hcyc]; rfl, hsib, by rw [hsib]; rfl⟩

/-- C2 witness: the termination part of `claim_c2_cycle_safety` applied to
the concrete cyclic store. -/
theorem claim_c2_cycle_safety_witness :
    (resolveTemplate cycleEnv "A" []).isSome = true :=
  claim_c2_cycle_safety.1 cycleEnv "A" [FsEntry.marker "B"] [] rfl

/-! ## Claim C1: ancestor ordering of an inheritance chain -/

/-- C1: for every inheritance chain `a` inherits `b` inherits `c`
(distinct names, acyclic), resolving `a` produces the ancestor steps in
deepest-first order `[c, b]`, and `loadTemplate` appends `a`'s own step
after all ancestor steps, so a more-derived copy can overwrite a
more-ancestral one. -/
theorem claim_c1_chain_order (a b c : String) (vars : VariablesMap)
    (hab : a ≠ b) (hbc : b ≠ c) (hac : a ≠ c) (hb : b ≠ "") (hc : c ≠ "") :
    resolveTemplate (chainEnv a b c) a vars =
      some ([⟨templatePathOf c, [], vars⟩, ⟨templatePathOf b, [], vars⟩], []) ∧
    loadTemplate (chainEnv a b c) a vars =
      some ([⟨templatePathOf c, [], vars⟩, ⟨templatePathOf b, [], vars⟩,
             ⟨templatePathOf a, [], vars⟩], []) := by
  have hbeq_ab : (a == b) = false := by simp [hab]
  have hbeq_ac : (a == c) = false := by simp [hac]
  have hbeq_bc : (b == c) = false := by simp [hbc]
  have hlookA : lookupTemplate (chainEnv a b c) a = some [FsEntry.marker b] := by
    simp [lookupTemplate, chainEnv, List.find?]
  have hlookB : lookupTemplate (chainEnv a b c) b = some [FsEntry.marker c] := by
    simp [lookupTemplate, chainEnv, List.find?, hbeq_ab]
  have hlookC : lookupTemplate (chainEnv a b c) c = some [] := by
    simp [lookupTemplate, chainEnv, List.find?, hbeq_ac, hbeq_bc]
  have hbound : boundFuel (chainEnv a b c) = 4 := by
    simp [boundFuel, allPaths, chainEnv, subDirPaths, dedupPaths, templatePathOf,
      hab, hbc, hac]
  have htb : (b == "") = false := by simp [hb]
  have htc : (c == "") = false := by simp [hc]
  have hnmB : templatePathOf b ∉ [templatePathOf a] := by
    simp only [templatePathOf, List.mem_singleton, List.cons.injEq, and_true, true_and]
    exact fun h => hab h.symm
  have hnmC : templatePathOf c ∉ [templatePathOf b, templatePathOf a] := by
    simp only [templatePathOf, List.mem_cons, List.mem_singleton, List.cons.injEq,
      and_true, true_and, List.not_mem_nil, or_false]
    rintro (h | h)
    · exact hbc h.symm
    · exact hac h.symm
  have hC : processInheritanceFiles (chainEnv a b c) vars 2 (templatePathOf c) []
      [templatePathOf b, templatePathOf a] [] = some ([], []) := by
    rw [pif_succ_not_mem _ _ 1 _ _ _ _ hnmC]
    rfl
  have hB : processInheritanceFiles (chainEnv a b c) vars 3 (templatePathOf b)
      [FsEntry.marker c] [templatePathOf a] [] =
      some ([⟨templatePathOf c, [], vars⟩], []) := by
    rw [pif_succ_not_mem _ _ 2 _ _ _ _ hnmB]
    refine (pe_marker_resolved (chainEnv a b c) vars
      (processInheritanceFiles (chainEnv a b c) vars 2) (templatePathOf b)
      [templatePathOf b, templatePathOf a] [] c [] [] [] [] [] []
      htc hlookC hC rfl).trans ?_
    simp
  have hA : processInheritanceFiles (chainEnv a b c) vars 4 (templatePathOf a)
      [FsEntry.marker b] [] [] =
      some ([⟨templatePathOf c, [], vars⟩, ⟨templatePathOf b, [], vars⟩], []) := by
    rw [pif_succ_not_mem _ _ 3 _ _ _ _ (by simp)]
    refine (pe_marker_resolved (chainEnv a b c) vars
      (processInheritanceFiles (chainEnv a b c) vars 3) (templatePathOf a)
      [templatePathOf a] [] b [] [FsEntry.marker c]
      [⟨templatePathOf c, [], vars⟩] [] [] []
      htb hlookB hB rfl).trans ?_
    simp
  have hres : resolveTemplate (chainEnv a b c) a vars =
      some ([⟨templatePathOf c, [], vars⟩, ⟨templatePathOf b, [], vars⟩], []) := by
    have h1 : resolveTemplate (chainEnv a b c) a vars =
        processInheritanceFiles (chainEnv a b c) vars (boundFuel (chainEnv a b c))
          (templatePathOf a) [FsEntry.marker b] [] [] := by
      simp only [resolveTemplate, hlookA]
    rw [h1, hbound]
    exact hA
  refine ⟨hres, ?_⟩
  simp [loadTemplate, hres]

/-- C1 witness: `claim_c1_chain_order` at the concrete chain
`A` inherits `B` inherits `C`. -/
theorem claim_c1_chain_order_witness :
    loadTemplate (chainEnv "A" "B" "C") "A" [] =
      some ([⟨templatePathOf "C", [], []⟩, ⟨templatePathOf "B", [], []⟩,
             ⟨templatePathOf "A", [], []⟩], []) :=
  (claim_c1_chain_order "A" "B" "C" [] (by decide) (by decide) (by decide)
    (by decide) (by decide)).2

end Lepo
